import Mathlib

/-!
Shallow embedding of the Collatz certificate toolchain
(`tools/certificate/windows.py`, `tools/certificate/funnels.py`,
`tools/certificate/validator.py`) and proofs about it.

Python machine-level details are modelled as follows: Python `int` is
unbounded, so it maps to `Nat` (all quantities in this code are
non-negative); `fractions.Fraction` maps to `ℚ` (both are exact
rationals in lowest terms); Python `%` on non-negative operands is
`Nat.mod`; a raised exception is an `Except`/`Option` error value.
-/

namespace Collatz

/-- Modular inverse, the value of Python `pow(a, -1, n)`: the unique
`x` in `[0, n)` with `a * x ≡ 1 (mod n)` when `a` and `n` are coprime.
Python computes it by the extended Euclidean algorithm; we use
`Nat.gcdA` from the same algorithm, reduced into `[0, n)`.  Both
produce the inverse reduced modulo `n`, which is unique, hence equal. -/
def modInv (a n : Nat) : Nat := (Nat.gcdA a n % (n : Int)).toNat

/-- `solve_residue`'s loop from `windows.py`: accumulators are the
position `idx` in the pattern, the cumulative valuation `K_t`, the
affine offset `c_t`, and the last solved residue `r_mod`.
`rhs = (-(3*c_t + 2^K_t) + 2^K_next) % modulus` is written in `Nat`
as `(2^K_next + (modulus - (3*c_t + 2^K_t) % modulus)) % modulus`,
which agrees with Python's always-non-negative `%`, and
`pow(3, -(idx+1), modulus)` is `modInv (3^(idx+1)) modulus`. -/
def solveResidueAux : List Nat → Nat → Nat → Nat → Nat → Nat × Nat
  | [], _idx, K_t, _c_t, r_mod => (r_mod, K_t)
  | s_val :: rest, idx, K_t, c_t, _r_mod =>
    let K_next := K_t + s_val
    let modulus := 2 ^ (K_next + 1)
    let rhs := (2 ^ K_next + (modulus - (3 * c_t + 2 ^ K_t) % modulus)) % modulus
    let inv := modInv (3 ^ (idx + 1)) modulus
    solveResidueAux rest (idx + 1) K_next (3 * c_t + 2 ^ K_t) ((inv * rhs) % modulus)

/-- `solve_residue(pattern)` from `windows.py`: returns
`(r mod 2^(K+1), K)` for the congruences of the pattern. -/
def solve_residue (pattern : List Nat) : Nat × Nat :=
  solveResidueAux pattern 0 0 0 0

/-- Cumulative valuation after `t` steps: `K_t = s_1 + ... + s_t`. -/
def Kpre (pattern : List Nat) (t : Nat) : Nat := (pattern.take t).sum

/-- Affine offset after `t` steps: `c_0 = 0`, `c_t = 3*c_(t-1) + 2^K_(t-1)`. -/
def cpre (pattern : List Nat) : Nat → Nat
  | 0 => 0
  | t + 1 => 3 * cpre pattern t + 2 ^ Kpre pattern t

/-- The per-step congruence of the specification, 0-indexed: step `t`
(for `t < j`) demands
`3^(t+1) * r + 3*c_t + 2^K_t ≡ 2^K_(t+1)  (mod 2^(K_(t+1)+1))`. -/
def StepCong (pattern : List Nat) (r : Nat) (t : Nat) : Prop :=
  3 ^ (t + 1) * r + 3 * cpre pattern t + 2 ^ Kpre pattern t
    ≡ 2 ^ Kpre pattern (t + 1) [MOD 2 ^ (Kpre pattern (t + 1) + 1)]

instance (pattern : List Nat) (r t : Nat) : Decidable (StepCong pattern r t) := by
  unfold StepCong Nat.ModEq; infer_instance

/-- `WindowRecord` from `windows.py`. -/
structure WindowRecord where
  residue : Nat
  exact_residue : Nat
  j : Nat
  K : Nat
  pattern : List Nat
  A : ℚ
  B : ℚ
  N0 : ℚ
deriving DecidableEq

/-- The `c_j` loop of `record_from_pattern`: `c_j = 0; K_t = 0;`
then for each `s_val`: `c_j = 3*c_j + 2^K_t; K_t += s_val`. -/
def cwalkAux : List Nat → Nat → Nat → Nat
  | [], c_j, _K_t => c_j
  | s_val :: rest, c_j, K_t => cwalkAux rest (3 * c_j + 2 ^ K_t) (K_t + s_val)

/-- `record_from_pattern(pattern)` from `windows.py`; `None` becomes
`none`.  `Fraction(a, b)` is the exact rational `(a : ℚ) / b`. -/
def record_from_pattern (pattern : List Nat) : Option WindowRecord :=
  let rK := solve_residue pattern
  let r_mod := rK.1
  let K := rK.2
  let j := pattern.length
  let three_pow : Nat := 3 ^ j
  let two_pow : Nat := 2 ^ K
  if three_pow ≥ two_pow then none
  else
    let c_j : Nat := cwalkAux pattern 0 0
    let A : ℚ := (three_pow : ℚ) / (two_pow : ℚ)
    let B : ℚ := (c_j : ℚ) / (two_pow : ℚ)
    let N0 : ℚ := B / (1 - A)
    some { residue := r_mod, exact_residue := r_mod, j := j, K := K,
           pattern := pattern, A := A, B := B, N0 := N0 }

/-- `project_residues(record, modulus_power)` from `windows.py`:
projects the exact residue to modulus `2^modulus_power`, duplicating
entries as needed; the Python `for offset in range(copies)` loop with
its parity filter is the `filterMap` over `List.range copies`. -/
def project_residues (record : WindowRecord) (modulus_power : Nat) : List WindowRecord :=
  let modulus := 2 ^ modulus_power
  let window_modulus := 2 ^ (record.K + 1)
  if window_modulus ≥ modulus then
    [{ record with residue := record.residue % modulus }]
  else
    let stride := window_modulus
    let copies := 2 ^ (modulus_power - (record.K + 1))
    (List.range copies).filterMap fun offset =>
      let candidate := record.residue + offset * stride
      if candidate % 2 = 1 then
        some { record with residue := candidate % modulus }
      else none

/-- Fuelled loop stripping factors of two.  Python computes
`shift = (value & -value).bit_length() - 1; value >>= shift`, i.e. it
removes every trailing binary zero at once; dividing by 2 while the
number is even and non-zero yields the same result, and a fuel of `n`
is enough because `n < 2^n`. -/
def oddPartAux : Nat → Nat → Nat
  | 0, n => n
  | fuel + 1, n => if n % 2 = 0 ∧ n ≠ 0 then oddPartAux fuel (n / 2) else n

/-- Odd part of `n`: `n` with all trailing factors of two removed. -/
def oddPart (n : Nat) : Nat := oddPartAux n n

/-- `accelerated_step(residue, modulus)` from `funnels.py` (the copy in
`validator.py` is textually identical):
`(3*residue + 1) >> v2(3*residue + 1)`, reduced modulo `modulus`. -/
def accelerated_step (residue modulus : Nat) : Nat :=
  oddPart (3 * residue + 1) % modulus

/-- `d`-fold application of the accelerated step at a fixed modulus. -/
def stepIter (modulus d x : Nat) : Nat :=
  (fun y => accelerated_step y modulus)^[d] x

/-- The odd residues `1, 3, 5, ...` below `modulus`, in ascending
order: Python's `range(1, modulus, 2)`. -/
def oddRange (modulus : Nat) : List Nat :=
  (List.range (modulus / 2)).map fun i => 2 * i + 1

/-- The inner loop of `funnel_lengths`: starting from `current` at
depth `depth`, with `fuel` membership tests remaining (the Python loop
`for depth in range(funnel_depth + 1)` performs `funnel_depth + 1`
tests), return the first depth whose value lies in the window set, or
`none` (Python: `length is None`, leading to the `RuntimeError`). -/
def firstWindowDepth (window_residues : Finset Nat) (modulus : Nat) :
    Nat → Nat → Nat → Option Nat
  | _current, _depth, 0 => none
  | current, depth, fuel + 1 =>
    if current ∈ window_residues then some depth
    else firstWindowDepth window_residues modulus
      (accelerated_step current modulus) (depth + 1) fuel

/-- The outer loop of `funnel_lengths` over a list of residues; a
`RuntimeError` (some residue never reaches the window set) is `none`
and discards the whole table, as the exception does in Python. -/
def funnelAux (window_residues : Finset Nat) (funnel_depth modulus : Nat) :
    List Nat → Option (List (Nat × Nat))
  | [] => some []
  | residue :: rest =>
    match firstWindowDepth window_residues modulus residue 0 (funnel_depth + 1) with
    | none => none
    | some length =>
      (funnelAux window_residues funnel_depth modulus rest).map
        fun tail => (residue, length) :: tail

/-- `funnel_lengths(config, window_residues)` from `funnels.py`,
with `config.modulus` and `config.funnel_depth` passed explicitly
(the histogram side artifact is derived data and not modelled). -/
def funnel_lengths (funnel_depth modulus : Nat) (window_residues : Finset Nat) :
    Option (List (Nat × Nat)) :=
  funnelAux window_residues funnel_depth modulus (oddRange modulus)

/-- The `backtrack` recursion inside `enumerate_patterns`: `pre` is the
accumulated prefix, `remaining` the budget, `slots` the number of parts
still to place.  Python never calls it with `slots = 0` (that case is
defined as the empty enumeration).  Python's
`min_part = max(1, remaining - max_part*(slots-1))` and
`max_part_allowed = min(max_part, remaining - (slots-1))` use truncated
`Nat` subtraction here; when the Python values are negative the chosen
range `range(min_part, max_part_allowed + 1)` is empty in both
readings, because `min_part ≥ 1` always. -/
def backtrack (max_part : Nat) : List Nat → Nat → Nat → List (List Nat)
  | _pre, _remaining, 0 => []
  | pre, remaining, 1 =>
    if 1 ≤ remaining ∧ remaining ≤ max_part then [pre ++ [remaining]] else []
  | pre, remaining, slots + 2 =>
    let min_part := max 1 (remaining - max_part * (slots + 1))
    let max_part_allowed := min max_part (remaining - (slots + 1))
    (List.range' min_part (max_part_allowed + 1 - min_part)).flatMap fun part =>
      backtrack max_part (pre ++ [part]) (remaining - part) (slots + 1)

/-- `enumerate_patterns(length, total, max_part)` from `windows.py`:
all compositions of `total` into `length` parts bounded by `max_part`. -/
def enumerate_patterns (length total max_part : Nat) : List (List Nat) :=
  if length = 1 then
    if 1 ≤ total ∧ total ≤ max_part then [[total]] else []
  else backtrack max_part [] total length

/-- One parsed row of `windows.csv`, as read by `validate_windows`
(fields in the order of the header). -/
structure WindowRow where
  residue : Nat
  exact_residue_modulus : Nat
  exact_residue : Nat
  j : Nat
  K : Nat
  pattern : List Nat
  A : ℚ
  B : ℚ
  N0 : ℚ
deriving DecidableEq

/-- The `ValueError`s that `validate_windows` can raise, in source
order; each carries the 1-based row index it reports (the congruence
failure also carries the step). -/
inductive ValidationError where
  | residueEven (idx : Nat)
  | exactModulusMismatch (idx : Nat)
  | lengthMismatch (idx : Nat)
  | congruenceFailed (idx t : Nat)
  | cumulativeKMismatch (idx : Nat)
  | aNotLessOne (idx : Nat)
  | affineMismatch (idx : Nat)
  | n0Mismatch (idx : Nat)
deriving DecidableEq

/-- The row index named by a `ValidationError`. -/
def ValidationError.rowIdx : ValidationError → Nat
  | .residueEven idx => idx
  | .exactModulusMismatch idx => idx
  | .lengthMismatch idx => idx
  | .congruenceFailed idx _ => idx
  | .cumulativeKMismatch idx => idx
  | .aNotLessOne idx => idx
  | .affineMismatch idx => idx
  | .n0Mismatch idx => idx

/-- The per-step congruence walk of `validate_windows`: accumulators
`t`, `K_t`, `c_t`; returns the index of the first failing step, or the
final `(K_t, c_t)`.  The Python check
`lhs = (pow(3, t+1, modulus) * (reduced_residue % modulus) + 3*c_t + (1 << K_t)) % modulus`
against `expected = 1 << K_next` is transcribed verbatim. -/
def congWalk (exact_residue : Nat) : List Nat → Nat → Nat → Nat → Except Nat (Nat × Nat)
  | [], _t, K_t, c_t => .ok (K_t, c_t)
  | s_val :: rest, t, K_t, c_t =>
    let K_next := K_t + s_val
    let modulus := 2 ^ (K_next + 1)
    let lhs := ((3 ^ (t + 1) % modulus) * (exact_residue % modulus)
      + 3 * c_t + 2 ^ K_t) % modulus
    if lhs = 2 ^ K_next then congWalk exact_residue rest (t + 1) K_next (3 * c_t + 2 ^ K_t)
    else .error t

/-- The per-row body of `validate_windows`' loop, raising the first
applicable `ValueError`; on success it returns the recomputed
`expected_N0` appended to `thresholds` by the caller.  Python's locals
`expected_A = Fraction(3^j, 2^K)`, `expected_B = Fraction(c_t, 2^K)`
and `expected_N0 = expected_B / (1 - expected_A)` are inlined. -/
def checkRow (idx : Nat) (row : WindowRow) : Except ValidationError ℚ :=
  if row.residue % 2 = 0 then .error (.residueEven idx)
  else if row.exact_residue_modulus ≠ 2 ^ (row.K + 1) then
    .error (.exactModulusMismatch idx)
  else if row.pattern.length ≠ row.j then .error (.lengthMismatch idx)
  else
    match congWalk row.exact_residue row.pattern 0 0 0 with
    | .error t => .error (.congruenceFailed idx t)
    | .ok Kc =>
      if Kc.1 ≠ row.K then .error (.cumulativeKMismatch idx)
      else if 1 ≤ ((3 ^ row.j : Nat) : ℚ) / ((2 ^ row.K : Nat) : ℚ) then
        .error (.aNotLessOne idx)
      else if row.A ≠ ((3 ^ row.j : Nat) : ℚ) / ((2 ^ row.K : Nat) : ℚ) ∨
          row.B ≠ ((Kc.2 : Nat) : ℚ) / ((2 ^ row.K : Nat) : ℚ) then
        .error (.affineMismatch idx)
      else if row.N0 ≠ ((Kc.2 : Nat) : ℚ) / ((2 ^ row.K : Nat) : ℚ) /
          (1 - ((3 ^ row.j : Nat) : ℚ) / ((2 ^ row.K : Nat) : ℚ)) then
        .error (.n0Mismatch idx)
      else .ok (((Kc.2 : Nat) : ℚ) / ((2 ^ row.K : Nat) : ℚ) /
        (1 - ((3 ^ row.j : Nat) : ℚ) / ((2 ^ row.K : Nat) : ℚ)))

/-- The row loop of `validate_windows`, threading Python's
accumulators `thresholds`, `window_residues`, `max_j`, `max_K`;
`idx` is the 1-based row counter of `enumerate(reader, start=1)`. -/
def validateWindowsAux :
    List WindowRow → Nat → List ℚ → Finset Nat → Nat → Nat →
    Except ValidationError (List ℚ × Finset Nat × Nat × Nat)
  | [], _idx, thresholds, window_residues, max_j, max_K =>
    .ok (thresholds, window_residues, max_j, max_K)
  | row :: rest, idx, thresholds, window_residues, max_j, max_K =>
    match checkRow idx row with
    | .error e => .error e
    | .ok expected_N0 =>
      validateWindowsAux rest (idx + 1) (thresholds ++ [expected_N0])
        (insert row.residue window_residues) (max max_j row.j) (max max_K row.K)

/-- `validate_windows(windows_csv, modulus_power)` from `validator.py`,
on the already-parsed rows (CSV parsing and the file handle are I/O
plumbing outside the core); returns
`(thresholds, window_residues, max_j, max_K)`. -/
def validate_windows (rows : List WindowRow) :
    Except ValidationError (List ℚ × Finset Nat × Nat × Nat) :=
  validateWindowsAux rows 1 [] ∅ 0 0

/-- Maximum of a list of rationals, Python's `max(thresholds)`:
`none` on the empty list (where Python raises). -/
def listMax : List ℚ → Option ℚ
  | [] => none
  | x :: xs => some (xs.foldl max x)

/-- The numeric core of `summarize` from `validator.py`: from the
thresholds, `j_max` and `L` it derives
`(max_threshold, N0_star, J_star)` with
`N0_star = ceil(2^L * max_threshold)` in exact rational arithmetic
(`math.ceil` of a `Fraction` is exact) and `J_star = j_max + L`.
The file hashes, paths and row counts in the summary are I/O plumbing
and are not modelled. -/
def summarize (thresholds : List ℚ) (j_max L : Nat) : Option (ℚ × Int × Nat) :=
  match listMax thresholds with
  | none => none
  | some max_threshold =>
    some (max_threshold, ⌈((2 ^ L : Nat) : ℚ) * max_threshold⌉, j_max + L)

/-! ### Basic facts about `modInv` -/

theorem modInv_toNat (a n : Nat) (hn : 0 < n) :
    ((modInv a n : Nat) : Int) = Nat.gcdA a n % (n : Int) :=
  Int.toNat_of_nonneg (Int.emod_nonneg _ (by exact_mod_cast hn.ne'))

theorem mul_modInv_modEq (a n : Nat) (h : Nat.Coprime a n) (hn : 1 < n) :
    a * modInv a n ≡ 1 [MOD n] := by
  have hn0 : 0 < n := Nat.lt_of_lt_of_le Nat.zero_lt_one hn.le
  rw [← Int.natCast_modEq_iff]
  push_cast
  rw [modInv_toNat a n hn0]
  have h1 : (Nat.gcdA a n % (n : Int)) ≡ Nat.gcdA a n [ZMOD (n : Int)] :=
    Int.emod_emod_of_dvd _ dvd_rfl
  have h2 : (a : Int) * (Nat.gcdA a n % (n : Int)) ≡ (a : Int) * Nat.gcdA a n [ZMOD (n : Int)] :=
    h1.mul_left _
  have h3 : ((a : Int) * Nat.gcdA a n + (n : Int) * Nat.gcdB a n) % (n : Int)
      = ((a : Int) * Nat.gcdA a n) % (n : Int) :=
    @Int.add_mul_emod_self_left ((a : Int) * Nat.gcdA a n) (n : Int) (Nat.gcdB a n)
  have h4 : (a : Int) * Nat.gcdA a n ≡ 1 [ZMOD (n : Int)] := by
    have hb : ((Nat.gcd a n : Nat) : Int) = (a : Int) * Nat.gcdA a n + (n : Int) * Nat.gcdB a n :=
      Nat.gcd_eq_gcd_ab a n
    have hg : ((Nat.gcd a n : Nat) : Int) = 1 := by
      rw [Nat.Coprime.gcd_eq_one h]; norm_num
    calc (a : Int) * Nat.gcdA a n
        ≡ (a : Int) * Nat.gcdA a n + (n : Int) * Nat.gcdB a n [ZMOD (n : Int)] := h3.symm
      _ = 1 := by rw [← hb, hg]
  exact h2.trans h4

/-! ### The prefix quantities `K_t`, `c_t` -/

theorem Kpre_zero (pattern : List Nat) : Kpre pattern 0 = 0 := by simp [Kpre]

theorem Kpre_succ (pattern : List Nat) (t : Nat) (ht : t < pattern.length) :
    Kpre pattern (t + 1) = Kpre pattern t + pattern.get ⟨t, ht⟩ := by
  unfold Kpre
  rw [List.sum_take_succ pattern t ht]
  simp

theorem Kpre_length (pattern : List Nat) : Kpre pattern pattern.length = pattern.sum := by
  simp [Kpre]

theorem Kpre_le_succ (pattern : List Nat) (t : Nat) :
    Kpre pattern t ≤ Kpre pattern (t + 1) := by
  by_cases ht : t < pattern.length
  · rw [Kpre_succ pattern t ht]; omega
  · unfold Kpre
    rw [List.take_of_length_le (by omega), List.take_of_length_le (by omega)]

/-! ### The single congruence-solving step -/

theorem step_core (tp m b target : Nat) (hm : 1 < m) (hcop : Nat.Coprime tp m) :
    tp * ((modInv tp m * ((target + (m - b % m)) % m)) % m) + b ≡ target [MOD m] := by
  have hm0 : 0 < m := Nat.lt_of_lt_of_le Nat.zero_lt_one hm.le
  set rhs := (target + (m - b % m)) % m with hrhs
  have h1 : tp * ((modInv tp m * rhs) % m) ≡ rhs [MOD m] := by
    calc tp * ((modInv tp m * rhs) % m)
        ≡ tp * (modInv tp m * rhs) [MOD m] := (Nat.mod_modEq _ m).mul_left tp
      _ = tp * modInv tp m * rhs := by ring
      _ ≡ 1 * rhs [MOD m] := (mul_modInv_modEq tp m hcop hm).mul_right rhs
      _ = rhs := by ring
  have h2 : rhs + b ≡ target [MOD m] := by
    have hb : b % m < m := Nat.mod_lt b hm0
    have hsum : m - b % m + b % m = m := by omega
    calc rhs + b
        ≡ target + (m - b % m) + b [MOD m] := (Nat.mod_modEq _ m).add_right b
      _ ≡ target + (m - b % m) + b % m [MOD m] := ((Nat.mod_modEq b m).symm).add_left _
      _ = target + m := by omega
      _ ≡ target [MOD m] := Nat.add_modEq_right
  calc tp * ((modInv tp m * rhs) % m) + b
      ≡ rhs + b [MOD m] := h1.add_right b
    _ ≡ target [MOD m] := h2

/-- Variant of `step_core` with the additive offset split as in the
congruence statement. -/
theorem step_core' (tp m b1 b2 target : Nat) (hm : 1 < m) (hcop : Nat.Coprime tp m) :
    tp * ((modInv tp m * ((target + (m - (b1 + b2) % m)) % m)) % m) + b1 + b2
      ≡ target [MOD m] := by
  have h := step_core tp m (b1 + b2) target hm hcop
  rw [← Nat.add_assoc] at h
  exact h

theorem cpre_succ (pattern : List Nat) (t : Nat) :
    cpre pattern (t + 1) = 3 * cpre pattern t + 2 ^ Kpre pattern t := rfl

theorem solveResidueAux_nil (idx K c r0 : Nat) :
    solveResidueAux [] idx K c r0 = (r0, K) := rfl

theorem solveResidueAux_cons (s : Nat) (rest : List Nat) (idx K c r0 : Nat) :
    solveResidueAux (s :: rest) idx K c r0 =
      solveResidueAux rest (idx + 1) (K + s) (3 * c + 2 ^ K)
        ((modInv (3 ^ (idx + 1)) (2 ^ (K + s + 1)) *
          ((2 ^ (K + s) + (2 ^ (K + s + 1) - (3 * c + 2 ^ K) % 2 ^ (K + s + 1)))
            % 2 ^ (K + s + 1))) % 2 ^ (K + s + 1)) := rfl

/-- Loop invariant of `solve_residue`: processing the tail of the
pattern from position `i` (with the accumulators holding the prefix
quantities) produces `K = Σ s_t`, a residue reduced modulo `2^(K+1)`,
and the congruence of the final step. -/
theorem solveAux_spec (pattern : List Nat) :
    ∀ n i r0, pattern.length = i + n + 1 →
      (solveResidueAux (pattern.drop i) i (Kpre pattern i) (cpre pattern i) r0).2
          = pattern.sum ∧
      (solveResidueAux (pattern.drop i) i (Kpre pattern i) (cpre pattern i) r0).1
          < 2 ^ (pattern.sum + 1) ∧
      StepCong pattern
        (solveResidueAux (pattern.drop i) i (Kpre pattern i) (cpre pattern i) r0).1
        (pattern.length - 1) := by
  intro n
  induction n with
  | zero =>
    intro i r0 hlen
    have hi : i < pattern.length := by omega
    have hdrop : pattern.drop i = pattern.get ⟨i, hi⟩ :: pattern.drop (i + 1) :=
      List.drop_eq_getElem_cons hi
    have hdrop2 : pattern.drop (i + 1) = [] := by
      apply List.drop_eq_nil_of_le; omega
    rw [hdrop, hdrop2, solveResidueAux_cons, solveResidueAux_nil]
    dsimp only
    have hK : Kpre pattern i + pattern.get ⟨i, hi⟩ = pattern.sum := by
      rw [← Kpre_succ pattern i hi]
      have h1 : i + 1 = pattern.length := by omega
      rw [h1, Kpre_length]
    have hm : (1 : Nat) < 2 ^ (Kpre pattern i + pattern.get ⟨i, hi⟩ + 1) :=
      Nat.one_lt_two_pow_iff.mpr (by omega)
    refine ⟨hK, ?_, ?_⟩
    · simp only [hK]
      exact Nat.mod_lt _ (by positivity)
    · have hlast : pattern.length - 1 = i := by omega
      rw [hlast]
      unfold StepCong
      have hK1 : Kpre pattern (i + 1) = Kpre pattern i + pattern.get ⟨i, hi⟩ :=
        Kpre_succ pattern i hi
      rw [hK1]
      exact step_core' (3 ^ (i + 1)) (2 ^ (Kpre pattern i + pattern.get ⟨i, hi⟩ + 1))
        (3 * cpre pattern i) (2 ^ Kpre pattern i) (2 ^ (Kpre pattern i + pattern.get ⟨i, hi⟩))
        hm (Nat.Coprime.pow _ _ (by decide))
  | succ n ih =>
    intro i r0 hlen
    have hi : i < pattern.length := by omega
    have hdrop : pattern.drop i = pattern.get ⟨i, hi⟩ :: pattern.drop (i + 1) :=
      List.drop_eq_getElem_cons hi
    rw [hdrop, solveResidueAux_cons]
    have e1 : Kpre pattern i + pattern.get ⟨i, hi⟩ = Kpre pattern (i + 1) :=
      (Kpre_succ pattern i hi).symm
    rw [e1, ← cpre_succ]
    exact ih (i + 1) _ (by omega)

/-- Soundness of `solve_residue`: `K` is the sum of the pattern, the
residue is reduced modulo `2^(K+1)`, and it satisfies the congruence
of the last step. -/
theorem solve_residue_sound (pattern : List Nat) (hne : pattern ≠ []) :
    (solve_residue pattern).2 = pattern.sum ∧
    (solve_residue pattern).1 < 2 ^ (pattern.sum + 1) ∧
    StepCong pattern (solve_residue pattern).1 (pattern.length - 1) := by
  have h0 : 0 < pattern.length := List.length_pos.mpr hne
  have h := solveAux_spec pattern (pattern.length - 1) 0 0 (by omega)
  simpa [solve_residue, Kpre_zero, cpre] using h

/-- Cascade: the congruence of step `t+1` forces the congruence of
step `t`, because the moduli are nested and `3` is invertible.  This
is why the loop of `solve_residue` may overwrite the residue at each
step and still satisfy every earlier congruence at the end. -/
theorem stepCong_cascade (pattern : List Nat) (r t : Nat)
    (hpos : ∀ s ∈ pattern, 1 ≤ s) (ht : t + 1 < pattern.length)
    (h : StepCong pattern r (t + 1)) : StepCong pattern r t := by
  set a := Kpre pattern (t + 1) with ha
  set X := 3 ^ (t + 1) * r + 3 * cpre pattern t + 2 ^ Kpre pattern t with hX
  have hs1 : 1 ≤ pattern.get ⟨t + 1, ht⟩ := hpos _ (pattern.get_mem _ _)
  have hKs : Kpre pattern (t + 2) = a + pattern.get ⟨t + 1, ht⟩ := Kpre_succ pattern (t + 1) ht
  have hkey : 3 ^ (t + 1 + 1) * r + 3 * cpre pattern (t + 1) + 2 ^ a = 3 * X + 2 ^ a := by
    rw [cpre_succ, hX]; ring
  unfold StepCong at h
  rw [hkey] at h
  have hdvd : (2 : Nat) ^ (a + 1) ∣ 2 ^ (Kpre pattern (t + 2) + 1) :=
    pow_dvd_pow 2 (by omega)
  have h1 : 3 * X + 2 ^ a ≡ 2 ^ Kpre pattern (t + 2) [MOD 2 ^ (a + 1)] :=
    h.of_dvd hdvd
  have h2 : (2 : Nat) ^ Kpre pattern (t + 2) ≡ 0 [MOD 2 ^ (a + 1)] :=
    Nat.modEq_zero_iff_dvd.mpr (pow_dvd_pow 2 (by omega))
  have h3 : 3 * X + 2 ^ a ≡ 0 [MOD 2 ^ (a + 1)] := h1.trans h2
  have h4 : 3 * X + 2 ^ (a + 1) ≡ 2 ^ a [MOD 2 ^ (a + 1)] := by
    have h4a := h3.add_right (2 ^ a)
    have e : 3 * X + 2 ^ a + 2 ^ a = 3 * X + 2 ^ (a + 1) := by rw [pow_succ]; ring
    rw [e] at h4a
    simpa using h4a
  have h6 : 3 * X ≡ 2 ^ a [MOD 2 ^ (a + 1)] :=
    (Nat.add_modEq_right.symm).trans h4
  have h7 : (3 : Nat) * 2 ^ a ≡ 2 ^ a [MOD 2 ^ (a + 1)] := by
    have e : (3 : Nat) * 2 ^ a = 2 ^ a + 2 ^ (a + 1) := by rw [pow_succ]; ring
    rw [e]
    exact Nat.add_modEq_right
  have h8 : 3 * X ≡ 3 * 2 ^ a [MOD 2 ^ (a + 1)] := h6.trans h7.symm
  have h9 : X ≡ 2 ^ a [MOD 2 ^ (a + 1)] :=
    Nat.ModEq.cancel_left_of_coprime (Nat.Coprime.pow_left (a + 1) (by decide)) h8
  exact h9

/-- All the prefix congruences follow from the one for the full
pattern. -/
theorem stepCong_all (pattern : List Nat) (r : Nat)
    (hpos : ∀ s ∈ pattern, 1 ≤ s)
    (hlast : StepCong pattern r (pattern.length - 1)) :
    ∀ t, t < pattern.length → StepCong pattern r t := by
  have key : ∀ d, d < pattern.length → StepCong pattern r (pattern.length - 1 - d) := by
    intro d
    induction d with
    | zero => intro _; simpa using hlast
    | succ d ih =>
      intro hd
      have h1 := ih (by omega)
      have e : pattern.length - 1 - d = pattern.length - 1 - (d + 1) + 1 := by omega
      rw [e] at h1
      exact stepCong_cascade pattern r _ hpos (by omega) h1
  intro t ht
  have h := key (pattern.length - 1 - t) (by omega)
  have e : pattern.length - 1 - (pattern.length - 1 - t) = t := by omega
  rwa [e] at h

/-- Uniqueness: any residue satisfying the congruence of the final
step agrees with any other modulo `2^(K+1)`. -/
theorem stepCong_last_unique (pattern : List Nat) (r r' : Nat) (hne : pattern ≠ [])
    (h : StepCong pattern r (pattern.length - 1))
    (h' : StepCong pattern r' (pattern.length - 1)) :
    r ≡ r' [MOD 2 ^ (pattern.sum + 1)] := by
  have h0 : 0 < pattern.length := List.length_pos.mpr hne
  have e : pattern.length - 1 + 1 = pattern.length := by omega
  unfold StepCong at h h'
  rw [e, Kpre_length] at h h'
  have htr := h.trans h'.symm
  have h1 := htr.add_right_cancel' (2 ^ Kpre pattern (pattern.length - 1))
  have h2 := h1.add_right_cancel' (3 * cpre pattern (pattern.length - 1))
  exact Nat.ModEq.cancel_left_of_coprime
    ((show Nat.Coprime 2 3 by decide).pow (pattern.sum + 1) pattern.length) h2

/-- The exact residue produced by `solve_residue` is odd (reduce the
first step congruence modulo 2). -/
theorem solve_residue_odd (pattern : List Nat) (hne : pattern ≠ [])
    (hpos : ∀ s ∈ pattern, 1 ≤ s) : (solve_residue pattern).1 % 2 = 1 := by
  obtain ⟨hK, hlt, hlast⟩ := solve_residue_sound pattern hne
  have h0 : 0 < pattern.length := List.length_pos.mpr hne
  have h := stepCong_all pattern _ hpos hlast 0 h0
  unfold StepCong at h
  have hs : 1 ≤ Kpre pattern (0 + 1) := by
    rw [Kpre_succ pattern 0 h0, Kpre_zero]
    have h1 := hpos _ (pattern.get_mem 0 h0)
    omega
  have hd1 : (2 : Nat) ∣ 2 ^ (Kpre pattern (0 + 1) + 1) := dvd_pow_self 2 (by omega)
  have hd2 : (2 : Nat) ∣ 2 ^ Kpre pattern (0 + 1) := dvd_pow_self 2 (by omega)
  have h2 := h.of_dvd hd1
  have h3 : (2 : Nat) ^ Kpre pattern (0 + 1) ≡ 0 [MOD 2] :=
    Nat.modEq_zero_iff_dvd.mpr hd2
  have h4 := h2.trans h3
  norm_num [cpre, Kpre_zero] at h4
  unfold Nat.ModEq at h4
  omega

/-- The `c_j` loop of `record_from_pattern` recomputes the prefix
offset `c` at the full pattern length. -/
theorem cwalkAux_spec (pattern : List Nat) :
    ∀ n i, pattern.length = i + n →
      cwalkAux (pattern.drop i) (cpre pattern i) (Kpre pattern i)
        = cpre pattern pattern.length := by
  intro n
  induction n with
  | zero =>
    intro i h
    rw [List.drop_eq_nil_of_le (by omega)]
    show cpre pattern i = cpre pattern pattern.length
    rw [show i = pattern.length by omega]
  | succ n ih =>
    intro i h
    have hi : i < pattern.length := by omega
    rw [List.drop_eq_getElem_cons hi]
    show cwalkAux _ (3 * cpre pattern i + 2 ^ Kpre pattern i) (Kpre pattern i + pattern[i]) = _
    rw [← cpre_succ]
    have e : Kpre pattern i + pattern[i] = Kpre pattern (i + 1) :=
      (Kpre_succ pattern i hi).symm
    rw [e]
    exact ih (i + 1) (by omega)

theorem cwalk_eq (pattern : List Nat) :
    cwalkAux pattern 0 0 = cpre pattern pattern.length := by
  have h := cwalkAux_spec pattern pattern.length 0 (by omega)
  simpa [Kpre_zero, cpre] using h

/-- C1: `solve_residue(pattern)` returns `(r, K)` with `K` the sum of
the pattern and `0 ≤ r < 2^(K+1)`, `r` satisfies the per-step
congruence `3^t·r + 3·c_(t-1) + 2^K_(t-1) ≡ 2^K_t (mod 2^(K_t+1))`
for every prefix length `t` (here 0-indexed: step `t` of
`t = 0, ..., j-1` is prefix length `t+1`), and `r` is the unique such
residue modulo `2^(K+1)`. -/
theorem solve_residue_correct (pattern : List Nat) (hne : pattern ≠ [])
    (hpos : ∀ s ∈ pattern, 1 ≤ s) :
    (solve_residue pattern).2 = pattern.sum ∧
    (solve_residue pattern).1 < 2 ^ ((solve_residue pattern).2 + 1) ∧
    (∀ t, t < pattern.length → StepCong pattern (solve_residue pattern).1 t) ∧
    (∀ r', (∀ t, t < pattern.length → StepCong pattern r' t) →
      r' ≡ (solve_residue pattern).1 [MOD 2 ^ ((solve_residue pattern).2 + 1)]) := by
  obtain ⟨hK, hlt, hlast⟩ := solve_residue_sound pattern hne
  have h0 : 0 < pattern.length := List.length_pos.mpr hne
  refine ⟨hK, by rw [hK]; exact hlt, stepCong_all pattern _ hpos hlast, ?_⟩
  intro r' hr'
  rw [hK]
  exact stepCong_last_unique pattern r' _ hne (hr' _ (by omega)) hlast

/-- Witness for C1 at the pattern `[2]` of the spec's concrete
scenario (`exact_residue = 1`, `K = 2`). -/
theorem solve_residue_correct_witness :
    (solve_residue [2]).2 = [2].sum ∧
    (solve_residue [2]).1 < 2 ^ ((solve_residue [2]).2 + 1) ∧
    (∀ t, t < [2].length → StepCong [2] (solve_residue [2]).1 t) ∧
    (∀ r', (∀ t, t < [2].length → StepCong [2] r' t) →
      r' ≡ (solve_residue [2]).1 [MOD 2 ^ ((solve_residue [2]).2 + 1)]) :=
  solve_residue_correct [2] (by decide) (by decide)

/-- C2: every record emitted by `record_from_pattern` has an odd
residue, `A = 3^j/2^K` with `0 < A < 1`, `B = c_j/2^K` and
`N0 = B/(1-A)`, all in exact rational arithmetic; a pattern with
`3^j ≥ 2^K` yields no record. -/
theorem record_from_pattern_spec (pattern : List Nat) (hne : pattern ≠ [])
    (hpos : ∀ s ∈ pattern, 1 ≤ s) :
    (∀ rec, record_from_pattern pattern = some rec →
      rec.residue % 2 = 1 ∧
      rec.A = ((3 ^ rec.j : Nat) : ℚ) / ((2 ^ rec.K : Nat) : ℚ) ∧
      0 < rec.A ∧ rec.A < 1 ∧
      rec.B = ((cpre pattern pattern.length : Nat) : ℚ) / ((2 ^ rec.K : Nat) : ℚ) ∧
      rec.N0 = rec.B / (1 - rec.A)) ∧
    (3 ^ pattern.length ≥ 2 ^ (solve_residue pattern).2 →
      record_from_pattern pattern = none) := by
  constructor
  · intro rec hrec
    simp only [record_from_pattern] at hrec
    split at hrec
    · exact absurd hrec (by simp)
    · rename_i hlt2
      injection hrec with hrec
      subst hrec
      push_neg at hlt2
      have hltQ : ((3 ^ pattern.length : Nat) : ℚ)
          < ((2 ^ (solve_residue pattern).2 : Nat) : ℚ) := by exact_mod_cast hlt2
      have h2pos : (0 : ℚ) < ((2 ^ (solve_residue pattern).2 : Nat) : ℚ) := by positivity
      refine ⟨solve_residue_odd pattern hne hpos, rfl, by positivity, ?_, ?_, rfl⟩
      · exact (div_lt_one h2pos).mpr hltQ
      · show ((cwalkAux pattern 0 0 : Nat) : ℚ) / _ = _
        rw [cwalk_eq]
  · intro hge
    simp only [record_from_pattern]
    rw [if_pos hge]

/-- Witness for C2 at the pattern `[2]` (a valid window) together
with the rejection branch at `[1]` (where `A = 3/2 ≥ 1`). -/
theorem record_from_pattern_spec_witness :
    ((∀ rec, record_from_pattern [2] = some rec →
      rec.residue % 2 = 1 ∧
      rec.A = ((3 ^ rec.j : Nat) : ℚ) / ((2 ^ rec.K : Nat) : ℚ) ∧
      0 < rec.A ∧ rec.A < 1 ∧
      rec.B = ((cpre [2] [2].length : Nat) : ℚ) / ((2 ^ rec.K : Nat) : ℚ) ∧
      rec.N0 = rec.B / (1 - rec.A)) ∧
    (3 ^ [2].length ≥ 2 ^ (solve_residue [2]).2 → record_from_pattern [2] = none)) ∧
    ((∀ rec, record_from_pattern [1] = some rec →
      rec.residue % 2 = 1 ∧
      rec.A = ((3 ^ rec.j : Nat) : ℚ) / ((2 ^ rec.K : Nat) : ℚ) ∧
      0 < rec.A ∧ rec.A < 1 ∧
      rec.B = ((cpre [1] [1].length : Nat) : ℚ) / ((2 ^ rec.K : Nat) : ℚ) ∧
      rec.N0 = rec.B / (1 - rec.A)) ∧
    (3 ^ [1].length ≥ 2 ^ (solve_residue [1]).2 → record_from_pattern [1] = none)) :=
  ⟨record_from_pattern_spec [2] (by decide) (by decide),
   record_from_pattern_spec [1] (by decide) (by decide)⟩

/-! ### Projection of residues (C3) -/

/-- Membership in the list of projected residues: the candidates below
the projection modulus survive `% modulus` unchanged. -/
theorem mem_filterMap_guard_range (N s r m x : Nat) (h : ∀ o, o < N → r + o * s < m) :
    (x ∈ (List.range N).filterMap fun o =>
      if (r + o * s) % 2 = 1 then some ((r + o * s) % m) else none) ↔
    ∃ o, o < N ∧ (r + o * s) % 2 = 1 ∧ x = r + o * s := by
  simp only [List.mem_filterMap, List.mem_range]
  constructor
  · rintro ⟨o, ho, hfo⟩
    by_cases hc : (r + o * s) % 2 = 1
    · rw [if_pos hc, Option.some_inj] at hfo
      exact ⟨o, ho, hc, by rw [← hfo, Nat.mod_eq_of_lt (h o ho)]⟩
    · rw [if_neg hc] at hfo
      exact absurd hfo (by simp)
  · rintro ⟨o, ho, hc, rfl⟩
    exact ⟨o, ho, by rw [if_pos hc, Nat.mod_eq_of_lt (h o ho)]⟩

/-- The projected residues are pairwise distinct: candidates are
strictly increasing in the offset. -/
theorem nodup_filterMap_guard_range (N s r m : Nat) (hs : 0 < s)
    (h : ∀ o, o < N → r + o * s < m) :
    ((List.range N).filterMap fun o =>
      if (r + o * s) % 2 = 1 then some ((r + o * s) % m) else none).Nodup := by
  induction N with
  | zero => simp
  | succ n ih =>
    rw [List.range_succ, List.filterMap_append]
    refine List.Nodup.append (ih fun o ho => h o (by omega)) ?_ ?_
    · by_cases hc : (r + n * s) % 2 = 1 <;> simp [hc]
    · intro x hx hx'
      rw [mem_filterMap_guard_range n s r m x fun o ho => h o (by omega)] at hx
      obtain ⟨o, ho, _, rfl⟩ := hx
      simp only [List.filterMap_cons, List.filterMap_nil] at hx'
      by_cases hc : (r + n * s) % 2 = 1
      · rw [if_pos hc] at hx'
        simp only [List.mem_singleton] at hx'
        rw [Nat.mod_eq_of_lt (h n (by omega))] at hx'
        have : o * s < n * s := (Nat.mul_lt_mul_right hs).mpr ho
        omega
      · rw [if_neg hc] at hx'
        exact absurd hx' (by simp)

/-- In the lifting branch, the residues of `project_residues` are the
guarded candidates over all offsets. -/
theorem project_residues_map (rec : WindowRecord) (mp : Nat)
    (h : ¬ 2 ^ (rec.K + 1) ≥ 2 ^ mp) :
    (project_residues rec mp).map WindowRecord.residue =
      (List.range (2 ^ (mp - (rec.K + 1)))).filterMap fun o =>
        if (rec.residue + o * 2 ^ (rec.K + 1)) % 2 = 1
        then some ((rec.residue + o * 2 ^ (rec.K + 1)) % 2 ^ mp) else none := by
  simp only [project_residues]
  rw [if_neg h, List.map_filterMap]
  refine List.filterMap_congr ?_
  intro o _
  by_cases hc : (rec.residue + o * 2 ^ (rec.K + 1)) % 2 = 1 <;> simp [hc]

/-- C3: when the natural modulus `2^(K+1)` is smaller than the
projection modulus `2^modulus_power`, `project_residues` returns
pairwise-distinct residues forming exactly the odd members of the
coset of `exact_residue` modulo `2^(K+1)` inside `[0, 2^modulus_power)`,
all other fields shared with the base record; when
`2^(K+1) ≥ 2^modulus_power` it returns the single record with the
exact residue reduced modulo `2^modulus_power`.  The hypotheses state
that the input is a base record as produced by `record_from_pattern`:
its `residue` field is the exact residue, already reduced. -/
theorem project_residues_spec (rec : WindowRecord) (modulus_power : Nat)
    (hr : rec.residue = rec.exact_residue)
    (hlt : rec.exact_residue < 2 ^ (rec.K + 1)) :
    (2 ^ (rec.K + 1) < 2 ^ modulus_power →
      ((project_residues rec modulus_power).map WindowRecord.residue).Nodup ∧
      (∀ x, x ∈ (project_residues rec modulus_power).map WindowRecord.residue ↔
        (x % 2 = 1 ∧ x < 2 ^ modulus_power ∧
          x % 2 ^ (rec.K + 1) = rec.exact_residue % 2 ^ (rec.K + 1))) ∧
      (∀ rec', rec' ∈ project_residues rec modulus_power →
        rec'.exact_residue = rec.exact_residue ∧ rec'.j = rec.j ∧ rec'.K = rec.K ∧
        rec'.pattern = rec.pattern ∧ rec'.A = rec.A ∧ rec'.B = rec.B ∧
        rec'.N0 = rec.N0)) ∧
    (2 ^ modulus_power ≤ 2 ^ (rec.K + 1) →
      project_residues rec modulus_power =
        [{ rec with residue := rec.exact_residue % 2 ^ modulus_power }]) := by
  constructor
  · intro hwlt
    have hnge : ¬ 2 ^ (rec.K + 1) ≥ 2 ^ modulus_power := by omega
    set s := 2 ^ (rec.K + 1) with hsdef
    set copies := 2 ^ (modulus_power - (rec.K + 1)) with hcdef
    have hs : 0 < s := by positivity
    have hKmp : rec.K + 1 < modulus_power := by
      by_contra hcon
      have : (2 : Nat) ^ modulus_power ≤ 2 ^ (rec.K + 1) :=
        Nat.pow_le_pow_right (by omega) (by omega)
      omega
    have hsc : s * copies = 2 ^ modulus_power := by
      rw [hsdef, hcdef, ← pow_add]
      congr 1
      omega
    have hcand : ∀ o, o < copies → rec.residue + o * s < 2 ^ modulus_power := by
      intro o ho
      have h1 : rec.residue + o * s < (o + 1) * s := by
        rw [add_mul, one_mul]
        have : rec.residue < s := by omega
        omega
      have h2 : (o + 1) * s ≤ copies * s := Nat.mul_le_mul_right s (by omega)
      rw [mul_comm copies s, hsc] at h2
      omega
    refine ⟨?_, ?_, ?_⟩
    · rw [project_residues_map rec modulus_power hnge]
      exact nodup_filterMap_guard_range copies s rec.residue (2 ^ modulus_power) hs hcand
    · intro x
      rw [project_residues_map rec modulus_power hnge,
        mem_filterMap_guard_range copies s rec.residue (2 ^ modulus_power) x hcand]
      constructor
      · rintro ⟨o, ho, hc, rfl⟩
        refine ⟨hc, hcand o ho, ?_⟩
        rw [Nat.add_mul_mod_self_right, hr]
      · rintro ⟨hodd, hxlt, hmod⟩
        refine ⟨x / s, ?_, ?_, ?_⟩
        · rw [Nat.div_lt_iff_lt_mul hs, mul_comm copies s, hsc]
          exact hxlt
        · have hx : rec.residue + x / s * s = x := by
            have hdm := Nat.div_add_mod x s
            have hxs : x % s = rec.residue := by
              rw [hmod, Nat.mod_eq_of_lt hlt] at *
              omega
            rw [mul_comm (x / s) s]
            omega
          rw [hx]
          exact hodd
        · have hdm := Nat.div_add_mod x s
          have hxs : x % s = rec.residue := by
            rw [hmod, Nat.mod_eq_of_lt hlt] at *
            omega
          rw [mul_comm (x / s) s]
          omega
    · intro rec' hrec'
      simp only [project_residues] at hrec'
      rw [if_neg hnge] at hrec'
      rw [List.mem_filterMap] at hrec'
      obtain ⟨o, _, hfo⟩ := hrec'
      by_cases hc : (rec.residue + o * 2 ^ (rec.K + 1)) % 2 = 1
      · rw [if_pos hc, Option.some_inj] at hfo
        subst hfo
        exact ⟨rfl, rfl, rfl, rfl, rfl, rfl, rfl⟩
      · rw [if_neg hc] at hfo
        exact absurd hfo (by simp)
  · intro hge
    simp only [project_residues]
    rw [if_pos hge, hr]

/-- Witness for C3: the base record of pattern `[2]`
(`exact_residue = 1`, `K = 2`) projected to modulus `2^4` (the lifting
branch produces residues 1 and 9) and to modulus `2^2` (the reducing
branch). -/
theorem project_residues_spec_witness :
    ((2 ^ (2 + 1) < 2 ^ 4 →
      ((project_residues ⟨1, 1, 1, 2, [2], 3 / 4, 1 / 4, 1⟩ 4).map WindowRecord.residue).Nodup ∧
      (∀ x, x ∈ (project_residues ⟨1, 1, 1, 2, [2], 3 / 4, 1 / 4, 1⟩ 4).map WindowRecord.residue ↔
        (x % 2 = 1 ∧ x < 2 ^ 4 ∧ x % 2 ^ (2 + 1) = 1 % 2 ^ (2 + 1))) ∧
      (∀ rec', rec' ∈ project_residues ⟨1, 1, 1, 2, [2], 3 / 4, 1 / 4, 1⟩ 4 →
        rec'.exact_residue = 1 ∧ rec'.j = 1 ∧ rec'.K = 2 ∧
        rec'.pattern = [2] ∧ rec'.A = 3 / 4 ∧ rec'.B = 1 / 4 ∧ rec'.N0 = 1)) ∧
    (2 ^ 4 ≤ 2 ^ (2 + 1) →
      project_residues ⟨1, 1, 1, 2, [2], 3 / 4, 1 / 4, 1⟩ 4 =
        [⟨1 % 2 ^ 4, 1, 1, 2, [2], 3 / 4, 1 / 4, 1⟩])) ∧
    (2 ^ 2 ≤ 2 ^ (2 + 1) →
      project_residues ⟨1, 1, 1, 2, [2], 3 / 4, 1 / 4, 1⟩ 2 =
        [⟨1 % 2 ^ 2, 1, 1, 2, [2], 3 / 4, 1 / 4, 1⟩]) :=
  ⟨project_residues_spec ⟨1, 1, 1, 2, [2], 3 / 4, 1 / 4, 1⟩ 4 rfl (by norm_num),
   (project_residues_spec ⟨1, 1, 1, 2, [2], 3 / 4, 1 / 4, 1⟩ 2 rfl (by norm_num)).2⟩

/-! ### Funnel search (C4, C6, C7) -/

theorem firstWindowDepth_some (wr : Finset Nat) (m : Nat) :
    ∀ fuel cur d0 dep, firstWindowDepth wr m cur d0 fuel = some dep →
      d0 ≤ dep ∧ dep < d0 + fuel ∧ stepIter m (dep - d0) cur ∈ wr ∧
      ∀ k, k < dep - d0 → stepIter m k cur ∉ wr := by
  intro fuel
  induction fuel with
  | zero =>
    intro cur d0 dep h
    exact absurd h (by simp [firstWindowDepth])
  | succ fuel ih =>
    intro cur d0 dep h
    rw [firstWindowDepth] at h
    by_cases hc : cur ∈ wr
    · rw [if_pos hc, Option.some_inj] at h
      subst h
      refine ⟨le_refl _, by omega, ?_, ?_⟩
      · simpa [stepIter] using hc
      · intro k hk
        omega
    · rw [if_neg hc] at h
      obtain ⟨h1, h2, h3, h4⟩ := ih _ _ _ h
      have hd : d0 < dep := by omega
      refine ⟨by omega, by omega, ?_, ?_⟩
      · have e : dep - d0 = (dep - (d0 + 1)) + 1 := by omega
        rw [e]
        rw [stepIter, Function.iterate_succ_apply]
        exact h3
      · intro k hk
        match k with
        | 0 => simpa [stepIter] using hc
        | k + 1 =>
          rw [stepIter, Function.iterate_succ_apply]
          exact h4 k (by omega)

theorem firstWindowDepth_none (wr : Finset Nat) (m : Nat) :
    ∀ fuel cur d0, firstWindowDepth wr m cur d0 fuel = none ↔
      ∀ k, k < fuel → stepIter m k cur ∉ wr := by
  intro fuel
  induction fuel with
  | zero =>
    intro cur d0
    simp [firstWindowDepth]
  | succ fuel ih =>
    intro cur d0
    rw [firstWindowDepth]
    by_cases hc : cur ∈ wr
    · rw [if_pos hc]
      simp only [reduceCtorEq, false_iff, not_forall]
      exact ⟨0, by omega, by simpa [stepIter] using hc⟩
    · rw [if_neg hc, ih _ (d0 + 1)]
      constructor
      · intro h k hk
        match k with
        | 0 => simpa [stepIter] using hc
        | k + 1 =>
          rw [stepIter, Function.iterate_succ_apply]
          exact h k (by omega)
      · intro h k hk
        have h1 := h (k + 1) (by omega)
        rw [stepIter, Function.iterate_succ_apply] at h1
        exact h1

theorem funnelAux_some (wr : Finset Nat) (fd m : Nat) :
    ∀ rs records, funnelAux wr fd m rs = some records →
      records.map Prod.fst = rs ∧
      ∀ p ∈ records, p.2 ≤ fd ∧ stepIter m p.2 p.1 ∈ wr ∧
        ∀ d, d < p.2 → stepIter m d p.1 ∉ wr := by
  intro rs
  induction rs with
  | nil =>
    intro records h
    rw [funnelAux, Option.some_inj] at h
    subst h
    exact ⟨rfl, by simp⟩
  | cons r rest ih =>
    intro records h
    rw [funnelAux] at h
    cases hfw : firstWindowDepth wr m r 0 (fd + 1) with
    | none => rw [hfw] at h; exact absurd h (by simp)
    | some len =>
      rw [hfw] at h
      cases hfa : funnelAux wr fd m rest with
      | none => rw [hfa] at h; exact absurd h (by simp)
      | some tail =>
        rw [hfa] at h
        simp only [Option.map_some', Option.some_inj] at h
        subst h
        obtain ⟨htail, hrec⟩ := ih tail hfa
        obtain ⟨_, hlt, hin, hmin⟩ := firstWindowDepth_some wr m (fd + 1) r 0 len hfw
        refine ⟨by simp [htail], ?_⟩
        intro p hp
        rcases List.mem_cons.mp hp with hp | hp
        · subst hp
          exact ⟨by omega, by simpa using hin, fun d hd => by
            have := hmin d (by omega)
            simpa using this⟩
        · exact hrec p hp

theorem funnelAux_none_iff (wr : Finset Nat) (fd m : Nat) :
    ∀ rs, funnelAux wr fd m rs = none ↔
      ∃ r ∈ rs, ∀ d, d ≤ fd → stepIter m d r ∉ wr := by
  intro rs
  induction rs with
  | nil => simp [funnelAux]
  | cons r rest ih =>
    rw [funnelAux]
    cases hfw : firstWindowDepth wr m r 0 (fd + 1) with
    | none =>
      simp only [true_iff]
      refine ⟨r, List.mem_cons_self r rest, ?_⟩
      intro d hd
      exact (firstWindowDepth_none wr m (fd + 1) r 0).mp hfw d (by omega)
    | some len =>
      obtain ⟨_, hlt, hin, _⟩ := firstWindowDepth_some wr m (fd + 1) r 0 len hfw
      constructor
      · intro h
        have h' : funnelAux wr fd m rest = none := by
          cases hfa : funnelAux wr fd m rest with
          | none => rfl
          | some tail => rw [hfa] at h; exact absurd h (by simp)
        obtain ⟨r', hr', hfail⟩ := ih.mp h'
        exact ⟨r', List.mem_cons_of_mem r hr', hfail⟩
      · rintro ⟨r', hr', hfail⟩
        rcases List.mem_cons.mp hr' with hq | hq
        · subst hq
          exact absurd (by simpa using hin) (hfail (len - 0) (by omega))
        · rw [ih.mpr ⟨r', hq, hfail⟩]
          rfl

theorem mem_oddRange (modulus r : Nat) :
    r ∈ oddRange modulus ↔ r % 2 = 1 ∧ r < modulus := by
  simp only [oddRange, List.mem_map, List.mem_range]
  constructor
  · rintro ⟨i, hi, rfl⟩
    omega
  · rintro ⟨hodd, hlt⟩
    exact ⟨r / 2, by omega, by omega⟩

theorem oddRange_sorted (modulus : Nat) : (oddRange modulus).Sorted (· < ·) := by
  unfold oddRange
  refine List.Pairwise.map _ ?_ (List.pairwise_lt_range _)
  intro a b hab
  omega

/-- C4: every `(residue, min_funnel_length)` pair produced by
`funnel_lengths` satisfies: the accelerated step applied
`min_funnel_length` times to `residue` lands in the window-residue
set, and no smaller number of applications does. -/
theorem funnel_lengths_minimal (funnel_depth modulus : Nat) (wr : Finset Nat)
    (records : List (Nat × Nat))
    (h : funnel_lengths funnel_depth modulus wr = some records) :
    ∀ p ∈ records, stepIter modulus p.2 p.1 ∈ wr ∧
      ∀ d, d < p.2 → stepIter modulus d p.1 ∉ wr := by
  intro p hp
  obtain ⟨_, hrec⟩ := funnelAux_some wr funnel_depth modulus (oddRange modulus) records h
  obtain ⟨_, hin, hmin⟩ := hrec p hp
  exact ⟨hin, hmin⟩

/-- Witness for C4: with window set `{1}` modulo `8`, the residue `3`
needs exactly two accelerated steps (`3 → 5 → 1`). -/
theorem funnel_lengths_minimal_witness :
    stepIter 8 (3, 2).2 (3, 2).1 ∈ ({1} : Finset Nat) ∧
      ∀ d, d < (3, 2).2 → stepIter 8 d (3, 2).1 ∉ ({1} : Finset Nat) :=
  funnel_lengths_minimal 16 8 {1} [(1, 0), (3, 2), (5, 1), (7, 3)] (by decide)
    (3, 2) (by decide)

/-- C6 (as written) is false on the code: residues already in the
window set do receive a funnel record, with `min_funnel_length = 0`.
Concretely, with window set `{1}` modulo `8` the output contains the
record `(1, 0)` although `1` is a window residue. -/
theorem funnel_lengths_window_record_counterexample :
    funnel_lengths 16 8 ({1} : Finset Nat) = some [(1, 0), (3, 2), (5, 1), (7, 3)] ∧
    ((1 : Nat), (0 : Nat)) ∈ [((1 : Nat), (0 : Nat)), (3, 2), (5, 1), (7, 3)] ∧
    (1 : Nat) ∈ ({1} : Finset Nat) := by
  refine ⟨by decide, by decide, by decide⟩

/-- C6 as amended: `funnel_lengths` emits exactly one record per odd
residue of `[1, modulus)` — including residues already in the window
set, which get depth `0` — in ascending residue order, and each
recorded depth is the first number of accelerated-step applications
whose value lies in the window-residue set. -/
theorem funnel_lengths_per_residue (funnel_depth modulus : Nat) (wr : Finset Nat)
    (records : List (Nat × Nat))
    (h : funnel_lengths funnel_depth modulus wr = some records) :
    (records.map Prod.fst).Sorted (· < ·) ∧
    (∀ r, r ∈ records.map Prod.fst ↔ (r % 2 = 1 ∧ r < modulus)) ∧
    ∀ p ∈ records, stepIter modulus p.2 p.1 ∈ wr ∧
      ∀ d, d < p.2 → stepIter modulus d p.1 ∉ wr := by
  obtain ⟨hmap, hrec⟩ := funnelAux_some wr funnel_depth modulus (oddRange modulus) records h
  refine ⟨?_, ?_, ?_⟩
  · rw [hmap]; exact oddRange_sorted modulus
  · intro r; rw [hmap]; exact mem_oddRange modulus r
  · intro p hp
    obtain ⟨_, hin, hmin⟩ := hrec p hp
    exact ⟨hin, hmin⟩

/-- Witness for C6's amended claim at window set `{1}` modulo `8`. -/
theorem funnel_lengths_per_residue_witness :
    (([(1, 0), (3, 2), (5, 1), (7, 3)] : List (Nat × Nat)).map Prod.fst).Sorted (· < ·) ∧
    (∀ r, r ∈ ([(1, 0), (3, 2), (5, 1), (7, 3)] : List (Nat × Nat)).map Prod.fst ↔
      (r % 2 = 1 ∧ r < 8)) ∧
    ∀ p ∈ ([(1, 0), (3, 2), (5, 1), (7, 3)] : List (Nat × Nat)),
      stepIter 8 p.2 p.1 ∈ ({1} : Finset Nat) ∧
      ∀ d, d < p.2 → stepIter 8 d p.1 ∉ ({1} : Finset Nat) :=
  funnel_lengths_per_residue 16 8 {1} [(1, 0), (3, 2), (5, 1), (7, 3)] (by decide)

/-- C7: `funnel_lengths` errors out (producing no list at all) exactly
when some odd residue below the modulus fails to reach the window set
within `funnel_depth` accelerated steps; on success every recorded
depth is at most `funnel_depth`. -/
theorem funnel_lengths_insufficient_depth (funnel_depth modulus : Nat) (wr : Finset Nat) :
    (funnel_lengths funnel_depth modulus wr = none ↔
      ∃ r, r % 2 = 1 ∧ r < modulus ∧
        ∀ d, d ≤ funnel_depth → stepIter modulus d r ∉ wr) ∧
    (∀ records, funnel_lengths funnel_depth modulus wr = some records →
      ∀ p ∈ records, p.2 ≤ funnel_depth) := by
  constructor
  · rw [funnel_lengths, funnelAux_none_iff wr funnel_depth modulus (oddRange modulus)]
    constructor
    · rintro ⟨r, hr, hfail⟩
      obtain ⟨hodd, hlt⟩ := (mem_oddRange modulus r).mp hr
      exact ⟨r, hodd, hlt, hfail⟩
    · rintro ⟨r, hodd, hlt, hfail⟩
      exact ⟨r, (mem_oddRange modulus r).mpr ⟨hodd, hlt⟩, hfail⟩
  · intro records h p hp
    obtain ⟨_, hrec⟩ := funnelAux_some wr funnel_depth modulus (oddRange modulus) records h
    exact (hrec p hp).1

/-- Witness for C7: with an empty window set nothing ever reaches a
window, so the search with any depth bound fails. -/
theorem funnel_lengths_insufficient_depth_witness :
    funnel_lengths 0 4 (∅ : Finset Nat) = none :=
  (funnel_lengths_insufficient_depth 0 4 ∅).1.mpr ⟨1, by decide, by decide, by decide⟩

/-! ### Pattern enumeration (C8) -/

theorem backtrack_one (maxp : Nat) (pre : List Nat) (remaining : Nat) :
    backtrack maxp pre remaining 1 =
      if 1 ≤ remaining ∧ remaining ≤ maxp then [pre ++ [remaining]] else [] := rfl

theorem backtrack_succ2 (maxp : Nat) (pre : List Nat) (remaining n : Nat) :
    backtrack maxp pre remaining (n + 2) =
      (List.range' (max 1 (remaining - maxp * (n + 1)))
        (min maxp (remaining - (n + 1)) + 1 - max 1 (remaining - maxp * (n + 1)))).flatMap
        fun part => backtrack maxp (pre ++ [part]) (remaining - part) (n + 1) := rfl

/-- Characterisation of the branch-and-bound recursion: it yields
exactly the lists `pre ++ suf` where `suf` is a composition of
`remaining` into `slots` positive parts bounded by `maxp`. -/
theorem backtrack_mem (maxp : Nat) :
    ∀ slots, 1 ≤ slots → ∀ pre remaining l,
      (l ∈ backtrack maxp pre remaining slots ↔
        ∃ suf, l = pre ++ suf ∧ suf.length = slots ∧ suf.sum = remaining ∧
          ∀ s ∈ suf, 1 ≤ s ∧ s ≤ maxp) := by
  intro slots
  induction slots using Nat.strong_induction_on with
  | _ slots ih =>
    match slots with
    | 0 => intro h; exact absurd h (by omega)
    | 1 =>
      intro _ pre remaining l
      rw [backtrack_one]
      by_cases hc : 1 ≤ remaining ∧ remaining ≤ maxp
      · rw [if_pos hc]
        simp only [List.mem_singleton]
        constructor
        · intro h
          exact ⟨[remaining], h, rfl, by simp, by
            intro s hs
            rw [List.mem_singleton] at hs
            omega⟩
        · rintro ⟨suf, rfl, hlen, hsum, hbd⟩
          obtain ⟨a, rfl⟩ := List.length_eq_one.mp hlen
          simp only [List.sum_cons, List.sum_nil] at hsum
          rw [show a = remaining by omega]
      · rw [if_neg hc]
        simp only [List.not_mem_nil, false_iff]
        rintro ⟨suf, rfl, hlen, hsum, hbd⟩
        obtain ⟨a, rfl⟩ := List.length_eq_one.mp hlen
        simp only [List.sum_cons, List.sum_nil] at hsum
        have := hbd a (by simp)
        omega
    | (n + 2) =>
      intro _ pre remaining l
      rw [backtrack_succ2, List.mem_flatMap]
      constructor
      · rintro ⟨part, hpr, hl⟩
        rw [List.mem_range'_1] at hpr
        have hpart : 1 ≤ part ∧ part ≤ maxp ∧ part ≤ remaining - (n + 1) := by omega
        rw [ih (n + 1) (by omega) (by omega) (pre ++ [part]) (remaining - part) l] at hl
        obtain ⟨suf', rfl, hlen, hsum, hbd⟩ := hl
        refine ⟨part :: suf', by simp, by simp [hlen], ?_, ?_⟩
        · simp only [List.sum_cons]
          omega
        · intro s hs
          rcases List.mem_cons.mp hs with hs | hs
          · omega
          · exact hbd s hs
      · rintro ⟨suf, rfl, hlen, hsum, hbd⟩
        cases suf with
        | nil => simp at hlen
        | cons part suf' =>
          simp only [List.length_cons] at hlen
          simp only [List.sum_cons] at hsum
          have hpbd := hbd part (List.mem_cons_self part suf')
          have hsum' : suf'.sum ≤ maxp * (n + 1) := by
            have h1 := List.sum_le_card_nsmul suf' maxp fun x hx => (hbd x (List.mem_cons_of_mem part hx)).2
            rw [smul_eq_mul, Nat.mul_comm] at h1
            have e : suf'.length = n + 1 := by omega
            rw [e] at h1
            exact h1
          have hsum'' : n + 1 ≤ suf'.sum := by
            have h1 := List.card_nsmul_le_sum suf' 1
              fun x hx => (hbd x (List.mem_cons_of_mem part hx)).1
            rw [smul_eq_mul] at h1
            have e : suf'.length = n + 1 := by omega
            rw [e] at h1
            omega
          refine ⟨part, ?_, ?_⟩
          · rw [List.mem_range'_1]
            omega
          · rw [ih (n + 1) (by omega) (by omega) (pre ++ [part]) (remaining - part) _]
            refine ⟨suf', by simp, by omega, by omega, ?_⟩
            intro s hs
            exact hbd s (List.mem_cons_of_mem part hs)

/-- The branch-and-bound recursion yields each composition at most
once: distinct first parts give lists that differ right after the
prefix. -/
theorem backtrack_nodup (maxp : Nat) :
    ∀ slots, 1 ≤ slots → ∀ pre remaining,
      (backtrack maxp pre remaining slots).Nodup := by
  intro slots
  induction slots using Nat.strong_induction_on with
  | _ slots ih =>
    match slots with
    | 0 => intro h; exact absurd h (by omega)
    | 1 =>
      intro _ pre remaining
      rw [backtrack_one]
      split <;> simp
    | (n + 2) =>
      intro _ pre remaining
      rw [backtrack_succ2, List.nodup_flatMap]
      constructor
      · intro part _
        exact ih (n + 1) (by omega) (by omega) (pre ++ [part]) (remaining - part)
      · refine ((List.pairwise_lt_range' _ _).imp ?_)
        intro a b hab l hla hlb
        rw [backtrack_mem maxp (n + 1) (by omega) (pre ++ [a]) (remaining - a) l] at hla
        rw [backtrack_mem maxp (n + 1) (by omega) (pre ++ [b]) (remaining - b) l] at hlb
        obtain ⟨s1, he1, _, _, _⟩ := hla
        obtain ⟨s2, he2, _, _, _⟩ := hlb
        rw [he2] at he1
        have h1 : pre ++ (a :: s1) = pre ++ (b :: s2) := by
          simpa using he1.symm
        have h2 := List.append_cancel_left h1
        have : a = b := by injection h2
        omega

theorem enumerate_patterns_eq_backtrack (j total maxv : Nat) (hj : 1 ≤ j) :
    enumerate_patterns j total maxv = backtrack maxv [] total j := by
  unfold enumerate_patterns
  by_cases h1 : j = 1
  · subst h1
    rfl
  · rw [if_neg h1]

/-- C8: for `j ≥ 1`, `enumerate_patterns j K max_valuation` yields
exactly the compositions of `K` into `j` positive parts each at most
`max_valuation`, every such composition exactly once (the list has no
duplicates), and nothing else. -/
theorem enumerate_patterns_spec (j K maxv : Nat) (hj : 1 ≤ j) :
    (∀ p, p ∈ enumerate_patterns j K maxv ↔
      (p.length = j ∧ p.sum = K ∧ ∀ s ∈ p, 1 ≤ s ∧ s ≤ maxv)) ∧
    (enumerate_patterns j K maxv).Nodup := by
  rw [enumerate_patterns_eq_backtrack j K maxv hj]
  refine ⟨?_, backtrack_nodup maxv j hj [] K⟩
  intro p
  rw [backtrack_mem maxv j hj [] K p]
  constructor
  · rintro ⟨suf, rfl, hlen, hsum, hbd⟩
    simpa using ⟨hlen, hsum, hbd⟩
  · rintro ⟨hlen, hsum, hbd⟩
    exact ⟨p, by simp, hlen, hsum, hbd⟩

/-- Witness for C8: the compositions of `3` into `2` parts bounded by
`2` are `[1,2]` and `[2,1]`. -/
theorem enumerate_patterns_spec_witness :
    (∀ p, p ∈ enumerate_patterns 2 3 2 ↔
      (p.length = 2 ∧ p.sum = 3 ∧ ∀ s ∈ p, 1 ≤ s ∧ s ≤ 2)) ∧
    (enumerate_patterns 2 3 2).Nodup :=
  enumerate_patterns_spec 2 3 2 (by decide)

/-! ### The validator's congruence walk (C5, C10) -/

theorem congWalk_nil (er i K c : Nat) : congWalk er [] i K c = .ok (K, c) := rfl

theorem congWalk_cons (er s : Nat) (rest : List Nat) (i K c : Nat) :
    congWalk er (s :: rest) i K c =
      if ((3 ^ (i + 1) % 2 ^ (K + s + 1)) * (er % 2 ^ (K + s + 1)) + 3 * c + 2 ^ K)
          % 2 ^ (K + s + 1) = 2 ^ (K + s)
      then congWalk er rest (i + 1) (K + s) (3 * c + 2 ^ K)
      else .error i := rfl

/-- The validator's reduced per-step check equals the congruence of
the specification. -/
theorem check_iff_modEq (a b c1 c2 target m : Nat) (ht : target < m) :
    (((a % m) * (b % m) + c1 + c2) % m = target ↔
      a * b + c1 + c2 ≡ target [MOD m]) := by
  have h1 : ((a % m) * (b % m) + c1 + c2) % m = (a * b + c1 + c2) % m :=
    (((Nat.mod_modEq a m).mul (Nat.mod_modEq b m)).add_right c1).add_right c2
  constructor
  · intro h
    show (a * b + c1 + c2) % m = target % m
    rw [← h1, h, Nat.mod_eq_of_lt ht]
  · intro h
    have h2 : (a * b + c1 + c2) % m = target % m := h
    rw [h1, h2, Nat.mod_eq_of_lt ht]

/-- Loop invariant of the validator's congruence walk: from position
`i` it succeeds exactly when every remaining step congruence holds, in
which case it returns the recomputed `(K, c_j)`, and it fails on the
first violated step. -/
theorem congWalk_spec (er : Nat) (pattern : List Nat) :
    ∀ n i, pattern.length = i + n →
      ((congWalk er (pattern.drop i) i (Kpre pattern i) (cpre pattern i)
          = .ok (pattern.sum, cpre pattern pattern.length) ↔
        ∀ t, i ≤ t → t < pattern.length → StepCong pattern er t) ∧
      (∀ K c, congWalk er (pattern.drop i) i (Kpre pattern i) (cpre pattern i) = .ok (K, c) →
        K = pattern.sum ∧ c = cpre pattern pattern.length) ∧
      (∀ t, congWalk er (pattern.drop i) i (Kpre pattern i) (cpre pattern i) = .error t →
        i ≤ t ∧ t < pattern.length ∧ ¬ StepCong pattern er t ∧
        ∀ u, i ≤ u → u < t → StepCong pattern er u)) := by
  intro n
  induction n with
  | zero =>
    intro i hlen
    rw [List.drop_eq_nil_of_le (by omega), congWalk_nil]
    have e1 : Kpre pattern i = pattern.sum := by
      rw [show i = pattern.length by omega, Kpre_length]
    have e2 : cpre pattern i = cpre pattern pattern.length := by
      rw [show i = pattern.length by omega]
    refine ⟨?_, ?_, ?_⟩
    · rw [e1, e2]
      simp only [true_iff]
      intro t ht1 ht2
      omega
    · intro K c h
      rw [Except.ok.injEq, Prod.mk.injEq] at h
      exact ⟨by rw [← h.1, e1], by rw [← h.2, e2]⟩
    · intro t h
      exact absurd h (by simp)
  | succ n ih =>
    intro i hlen
    have hi : i < pattern.length := by omega
    rw [List.drop_eq_getElem_cons hi, congWalk_cons]
    have eK : Kpre pattern i + pattern[i] = Kpre pattern (i + 1) :=
      (Kpre_succ pattern i hi).symm
    have ec : 3 * cpre pattern i + 2 ^ Kpre pattern i = cpre pattern (i + 1) := rfl
    have ht : (2 : Nat) ^ Kpre pattern (i + 1) < 2 ^ (Kpre pattern (i + 1) + 1) :=
      Nat.pow_lt_pow_right (by omega) (by omega)
    have hcondiff :
        (((3 ^ (i + 1) % 2 ^ (Kpre pattern i + pattern[i] + 1))
            * (er % 2 ^ (Kpre pattern i + pattern[i] + 1))
            + 3 * cpre pattern i + 2 ^ Kpre pattern i)
          % 2 ^ (Kpre pattern i + pattern[i] + 1) = 2 ^ (Kpre pattern i + pattern[i]))
        ↔ StepCong pattern er i := by
      rw [eK]
      exact check_iff_modEq (3 ^ (i + 1)) er (3 * cpre pattern i) (2 ^ Kpre pattern i)
        (2 ^ Kpre pattern (i + 1)) (2 ^ (Kpre pattern (i + 1) + 1)) ht
    by_cases hcond : StepCong pattern er i
    · rw [if_pos (hcondiff.mpr hcond), eK, ec]
      obtain ⟨ihiff, ihok, iherr⟩ := ih (i + 1) (by omega)
      refine ⟨?_, ihok, ?_⟩
      · rw [ihiff]
        constructor
        · intro h t ht1 ht2
          rcases Nat.eq_or_lt_of_le ht1 with he | hlt
          · rw [← he]; exact hcond
          · exact h t (by omega) ht2
        · intro h t ht1 ht2
          exact h t (by omega) ht2
      · intro t h
        obtain ⟨h1, h2, h3, h4⟩ := iherr t h
        refine ⟨by omega, h2, h3, ?_⟩
        intro u hu1 hu2
        rcases Nat.eq_or_lt_of_le hu1 with he | hlt
        · rw [← he]; exact hcond
        · exact h4 u (by omega) hu2
    · rw [if_neg (fun hc => hcond (hcondiff.mp hc))]
      refine ⟨?_, ?_, ?_⟩
      · simp only [reduceCtorEq, false_iff, not_forall]
        exact ⟨i, le_refl i, hi, hcond⟩
      · intro K c h
        exact absurd h (by simp)
      · intro t h
        rw [Except.error.injEq] at h
        subst h
        exact ⟨le_refl i, hi, hcond, fun u hu1 hu2 => absurd hu1 (by omega)⟩

/-- Top-level form of `congWalk_spec` as the validator invokes it. -/
theorem congWalk_top (er : Nat) (pattern : List Nat) :
    ((congWalk er pattern 0 0 0 = .ok (pattern.sum, cpre pattern pattern.length) ↔
      ∀ t, t < pattern.length → StepCong pattern er t) ∧
    (∀ K c, congWalk er pattern 0 0 0 = .ok (K, c) →
      K = pattern.sum ∧ c = cpre pattern pattern.length) ∧
    (∀ t, congWalk er pattern 0 0 0 = .error t →
      t < pattern.length ∧ ¬ StepCong pattern er t ∧
      ∀ u, u < t → StepCong pattern er u)) := by
  have h := congWalk_spec er pattern pattern.length 0 (by omega)
  rw [List.drop_zero, Kpre_zero] at h
  have hc : cpre pattern 0 = 0 := rfl
  rw [hc] at h
  obtain ⟨h1, h2, h3⟩ := h
  refine ⟨?_, h2, ?_⟩
  · rw [h1]
    constructor
    · intro h t ht; exact h t (by omega) ht
    · intro h t _ ht; exact h t ht
  · intro t ht
    obtain ⟨_, ha, hb, hd⟩ := h3 t ht
    exact ⟨ha, hb, fun u hu => hd u (by omega) hu⟩

/-- A row passes `validate_windows`' per-row checklist: odd residue,
exact modulus `2^(K+1)`, pattern length `j`, every per-step congruence
on the stored `exact_residue`, cumulative valuation `K`, recomputed
`A = 3^j/2^K < 1`, and stored `A`, `B`, `N0` equal to the exact
rational recomputation. -/
def RowOK (row : WindowRow) : Prop :=
  row.residue % 2 = 1 ∧
  row.exact_residue_modulus = 2 ^ (row.K + 1) ∧
  row.pattern.length = row.j ∧
  (∀ t, t < row.pattern.length → StepCong row.pattern row.exact_residue t) ∧
  row.pattern.sum = row.K ∧
  3 ^ row.j < 2 ^ row.K ∧
  row.A = ((3 ^ row.j : Nat) : ℚ) / ((2 ^ row.K : Nat) : ℚ) ∧
  row.B = ((cpre row.pattern row.pattern.length : Nat) : ℚ) / ((2 ^ row.K : Nat) : ℚ) ∧
  row.N0 = row.B / (1 - row.A)

instance (row : WindowRow) : Decidable (RowOK row) := by
  unfold RowOK; infer_instance

/-- `checkRow` succeeds exactly on rows passing the checklist, and any
error it raises names the row index it was given. -/
theorem checkRow_spec (idx : Nat) (row : WindowRow) :
    ((∃ q, checkRow idx row = .ok q) ↔ RowOK row) ∧
    (∀ e, checkRow idx row = .error e → e.rowIdx = idx) := by
  have hq2 : (0 : ℚ) < ((2 ^ row.K : Nat) : ℚ) := by positivity
  have hA1 : ((1 : ℚ) ≤ ((3 ^ row.j : Nat) : ℚ) / ((2 ^ row.K : Nat) : ℚ)) ↔
      2 ^ row.K ≤ 3 ^ row.j := by
    rw [le_div_iff₀ hq2, one_mul, Nat.cast_le]
  unfold checkRow RowOK
  by_cases h1 : row.residue % 2 = 0
  · rw [if_pos h1]
    refine ⟨⟨fun ⟨q, hq⟩ => absurd hq (by simp), fun hok => absurd hok.1 (by omega)⟩, ?_⟩
    intro e he
    rw [Except.error.injEq] at he
    rw [← he]
    rfl
  · rw [if_neg h1]
    by_cases h2 : row.exact_residue_modulus = 2 ^ (row.K + 1)
    case neg =>
      rw [if_pos h2]
      refine ⟨⟨fun ⟨q, hq⟩ => absurd hq (by simp), fun hok => absurd hok.2.1 h2⟩, ?_⟩
      intro e he
      rw [Except.error.injEq] at he
      rw [← he]
      rfl
    case pos =>
      rw [if_neg (by simpa using h2)]
      by_cases h3 : row.pattern.length = row.j
      case neg =>
        rw [if_pos h3]
        refine ⟨⟨fun ⟨q, hq⟩ => absurd hq (by simp), fun hok => absurd hok.2.2.1 h3⟩, ?_⟩
        intro e he
        rw [Except.error.injEq] at he
        rw [← he]
        rfl
      case pos =>
        rw [if_neg (by simpa using h3)]
        obtain ⟨hwiff, hwok, hwerr⟩ := congWalk_top row.exact_residue row.pattern
        cases hcw : congWalk row.exact_residue row.pattern 0 0 0 with
        | error t =>
          obtain ⟨ht, hnc, _⟩ := hwerr t hcw
          refine ⟨⟨fun ⟨q, hq⟩ => absurd hq (by simp),
            fun hok => absurd (hok.2.2.2.1 t ht) hnc⟩, ?_⟩
          intro e he
          simp only [Except.error.injEq] at he
          rw [← he]
          rfl
        | ok Kc =>
          obtain ⟨hK1, hc1⟩ := hwok Kc.1 Kc.2 (by rw [hcw])
          dsimp only
          by_cases h4 : Kc.1 = row.K
          case neg =>
            rw [if_pos h4]
            refine ⟨⟨fun ⟨q, hq⟩ => absurd hq (by simp),
              fun hok => absurd (hK1.trans hok.2.2.2.2.1) h4⟩, ?_⟩
            intro e he
            simp only [Except.error.injEq] at he
            rw [← he]
            rfl
          case pos =>
            rw [if_neg (by simpa using h4)]
            by_cases h5 : (1 : ℚ) ≤ ((3 ^ row.j : Nat) : ℚ) / ((2 ^ row.K : Nat) : ℚ)
            case pos =>
              rw [if_pos h5]
              refine ⟨⟨fun ⟨q, hq⟩ => absurd hq (by simp),
                fun hok => absurd hok.2.2.2.2.2.1 (by have := hA1.mp h5; omega)⟩, ?_⟩
              intro e he
              simp only [Except.error.injEq] at he
              rw [← he]
              rfl
            case neg =>
              rw [if_neg h5]
              by_cases h6A : row.A = ((3 ^ row.j : Nat) : ℚ) / ((2 ^ row.K : Nat) : ℚ)
              case neg =>
                rw [if_pos (Or.inl h6A)]
                refine ⟨⟨fun ⟨q, hq⟩ => absurd hq (by simp),
                  fun hok => absurd hok.2.2.2.2.2.2.1 h6A⟩, ?_⟩
                intro e he
                simp only [Except.error.injEq] at he
                rw [← he]
                rfl
              case pos =>
                by_cases h6B : row.B = ((Kc.2 : Nat) : ℚ) / ((2 ^ row.K : Nat) : ℚ)
                case neg =>
                  rw [if_pos (Or.inr h6B)]
                  refine ⟨⟨fun ⟨q, hq⟩ => absurd hq (by simp), fun hok => ?_⟩, ?_⟩
                  · have hB : row.B = ((Kc.2 : Nat) : ℚ) / ((2 ^ row.K : Nat) : ℚ) := by
                      rw [hc1]
                      exact hok.2.2.2.2.2.2.2.1
                    exact absurd hB h6B
                  · intro e he
                    simp only [Except.error.injEq] at he
                    rw [← he]
                    rfl
                case pos =>
                  rw [if_neg (by simp [h6A, h6B])]
                  by_cases h7 : row.N0 = ((Kc.2 : Nat) : ℚ) / ((2 ^ row.K : Nat) : ℚ) /
                      (1 - ((3 ^ row.j : Nat) : ℚ) / ((2 ^ row.K : Nat) : ℚ))
                  case neg =>
                    rw [if_pos h7]
                    refine ⟨⟨fun ⟨q, hq⟩ => absurd hq (by simp), fun hok => ?_⟩, ?_⟩
                    · have hN : row.N0 = ((Kc.2 : Nat) : ℚ) / ((2 ^ row.K : Nat) : ℚ) /
                          (1 - ((3 ^ row.j : Nat) : ℚ) / ((2 ^ row.K : Nat) : ℚ)) := by
                        rw [hok.2.2.2.2.2.2.2.2, hok.2.2.2.2.2.2.2.1, hc1, h6A]
                      exact absurd hN h7
                    · intro e he
                      simp only [Except.error.injEq] at he
                      rw [← he]
                      rfl
                  case pos =>
                    rw [if_neg (by simpa using h7)]
                    refine ⟨⟨fun _ => ?_, fun _ => ⟨_, rfl⟩⟩, ?_⟩
                    · have hcong : congWalk row.exact_residue row.pattern 0 0 0
                          = .ok (row.pattern.sum, cpre row.pattern row.pattern.length) := by
                        rw [hcw, ← hK1, ← hc1]
                      refine ⟨by omega, h2, h3, hwiff.mp hcong, by omega, ?_, h6A, ?_, ?_⟩
                      · have := hA1.not.mp h5
                        omega
                      · rw [h6B, hc1]
                      · rw [h7, h6B, h6A]
                    · intro e he
                      exact absurd he (by simp)

/-- Loop invariant of `validate_windows`: it succeeds exactly when
every row passes, and an error reports `start + i` for the first
failing position `i` (Python starts `enumerate` at `start = 1`). -/
theorem validateWindowsAux_spec :
    ∀ (rows : List WindowRow) (idx : Nat) (thresholds : List ℚ)
      (res : Finset Nat) (mj mK : Nat),
      ((∃ out, validateWindowsAux rows idx thresholds res mj mK = .ok out) ↔
        ∀ row ∈ rows, RowOK row) ∧
      (∀ e, validateWindowsAux rows idx thresholds res mj mK = .error e →
        ∃ i, ∃ hi : i < rows.length, e.rowIdx = idx + i ∧
          ¬ RowOK (rows.get ⟨i, hi⟩) ∧
          ∀ k, ∀ hk : k < i, RowOK (rows.get ⟨k, by omega⟩)) := by
  intro rows
  induction rows with
  | nil =>
    intro idx thresholds res mj mK
    constructor
    · simp [validateWindowsAux]
    · intro e he
      exact absurd he (by simp [validateWindowsAux])
  | cons row rest ih =>
    intro idx thresholds res mj mK
    rw [validateWindowsAux]
    obtain ⟨hciff, hcerr⟩ := checkRow_spec idx row
    cases hcr : checkRow idx row with
    | error e0 =>
      have hnok : ¬ RowOK row := fun hok => by
        obtain ⟨q, hq⟩ := hciff.mpr hok
        rw [hcr] at hq
        exact absurd hq (by simp)
      constructor
      · constructor
        · rintro ⟨out, hout⟩
          exact absurd hout (by simp)
        · intro h
          exact absurd (h row (List.mem_cons_self row rest)) hnok
      · intro e he
        simp only [Except.error.injEq] at he
        refine ⟨0, by simp, ?_, by simpa using hnok, ?_⟩
        · rw [← he, hcerr e0 hcr]
          omega
        · intro k hk
          omega
    | ok q =>
      have hok : RowOK row := hciff.mp ⟨q, hcr⟩
      obtain ⟨ihiff, iherr⟩ := ih (idx + 1) (thresholds ++ [q]) (insert row.residue res)
        (max mj row.j) (max mK row.K)
      constructor
      · rw [ihiff]
        constructor
        · intro h r hr
          rcases List.mem_cons.mp hr with hr | hr
          · rw [hr]; exact hok
          · exact h r hr
        · intro h r hr
          exact h r (List.mem_cons_of_mem row hr)
      · intro e he
        obtain ⟨i, hi, he1, he2, he3⟩ := iherr e he
        refine ⟨i + 1, by simpa using hi, by omega, by simpa using he2, ?_⟩
        intro k hk
        match k with
        | 0 => simpa using hok
        | k + 1 =>
          have := he3 k (by omega)
          simpa using this

/-- C5: `validate_windows` completes without raising exactly when
every row passes every check of the checklist (`RowOK`), and on
failure it raises at the first offending row, naming that row's
1-based index. -/
theorem validate_windows_spec (rows : List WindowRow) :
    ((∃ out, validate_windows rows = .ok out) ↔ ∀ row ∈ rows, RowOK row) ∧
    (∀ e, validate_windows rows = .error e →
      ∃ i, ∃ hi : i < rows.length, e.rowIdx = i + 1 ∧
        ¬ RowOK (rows.get ⟨i, hi⟩) ∧
        ∀ k, ∀ hk : k < i, RowOK (rows.get ⟨k, by omega⟩)) := by
  obtain ⟨h1, h2⟩ := validateWindowsAux_spec rows 1 [] ∅ 0 0
  refine ⟨h1, ?_⟩
  intro e he
  obtain ⟨i, hi, he1, he2, he3⟩ := h2 e he
  exact ⟨i, hi, by omega, he2, he3⟩

/-- Witness for C5: a one-row table containing the valid window of
pattern `[2]` (residue 1 mod 8) passes validation; a row with the even
residue 4 makes validation fail at row 1. -/
theorem validate_windows_spec_witness :
    (∃ out, validate_windows [⟨1, 8, 1, 1, 2, [2], 3 / 4, 1 / 4, 1⟩] = .ok out) ∧
    (∃ i, ∃ hi : i < [(⟨4, 8, 1, 1, 2, [2], 3 / 4, 1 / 4, 1⟩ : WindowRow)].length,
      (ValidationError.residueEven 1).rowIdx = i + 1 ∧
      ¬ RowOK ([(⟨4, 8, 1, 1, 2, [2], 3 / 4, 1 / 4, 1⟩ : WindowRow)].get ⟨i, hi⟩) ∧
      ∀ k, ∀ hk : k < i, RowOK ([(⟨4, 8, 1, 1, 2, [2], 3 / 4, 1 / 4, 1⟩ : WindowRow)].get
        ⟨k, by omega⟩)) :=
  ⟨(validate_windows_spec [⟨1, 8, 1, 1, 2, [2], 3 / 4, 1 / 4, 1⟩]).1.mpr
    (by
      intro row hr
      rw [List.mem_singleton] at hr
      subst hr
      exact ⟨by decide, by decide, by decide, by decide, by decide, by decide,
        by rfl, by rfl, by norm_num⟩),
   (validate_windows_spec [⟨4, 8, 1, 1, 2, [2], 3 / 4, 1 / 4, 1⟩]).2
     (ValidationError.residueEven 1) (by rfl)⟩

/-- C10: `validate_windows` never compares the projected `residue`
with `exact_residue` modulo `2^(K+1)`.  The row with residue 5,
pattern `[2]`, exact residue 1, `K = 2`, `A = 3/4`, `B = 1/4`,
`N0 = 1` is accepted although `5 ≢ 1 (mod 8)`. -/
theorem validate_windows_missing_congruence_check :
    validate_windows [⟨5, 8, 1, 1, 2, [2], 3 / 4, 1 / 4, 1⟩] =
      .ok ([1], {5}, 1, 2) ∧
    (5 : Nat) % 2 = 1 ∧
    (5 : Nat) % 2 ^ (2 + 1) ≠ 1 % 2 ^ (2 + 1) := by
  refine ⟨?_, by decide, by decide⟩
  show validateWindowsAux _ 1 [] ∅ 0 0 = _
  rw [validateWindowsAux]
  have hcr : checkRow 1 ⟨5, 8, 1, 1, 2, [2], 3 / 4, 1 / 4, 1⟩ = .ok 1 := by
    unfold checkRow
    rw [if_neg (by decide), if_neg (by decide), if_neg (by decide),
      show congWalk 1 [2] 0 0 0 = .ok (2, 1) from rfl]
    dsimp only
    rw [if_neg (by decide), if_neg (by norm_num), if_neg (by norm_num),
      if_neg (by norm_num)]
    norm_num
  rw [hcr]
  rfl

/-! ### Summary derivation (C9) -/

theorem foldl_max_le (xs : List ℚ) : ∀ x, x ≤ xs.foldl max x := by
  induction xs with
  | nil => intro x; exact le_refl x
  | cons y ys ih =>
    intro x
    exact le_trans (le_max_left x y) (ih (max x y))

theorem foldl_max_mem (xs : List ℚ) : ∀ x, xs.foldl max x ∈ x :: xs := by
  induction xs with
  | nil => intro x; simp
  | cons y ys ih =>
    intro x
    have h := ih (max x y)
    rcases List.mem_cons.mp h with h | h
    · rcases max_choice x y with hc | hc
      · exact List.mem_cons.mpr (Or.inl (h.trans hc))
      · exact List.mem_cons.mpr (Or.inr (List.mem_cons.mpr (Or.inl (h.trans hc))))
    · exact List.mem_cons.mpr (Or.inr (List.mem_cons.mpr (Or.inr h)))

theorem le_foldl_max (xs : List ℚ) : ∀ x t, t ∈ x :: xs → t ≤ xs.foldl max x := by
  induction xs with
  | nil =>
    intro x t ht
    rw [List.mem_singleton] at ht
    rw [ht]
    exact le_refl x
  | cons y ys ih =>
    intro x t ht
    show t ≤ ys.foldl max (max x y)
    rcases List.mem_cons.mp ht with ht | ht
    · rw [ht]
      exact le_trans (le_max_left x y) (foldl_max_le ys (max x y))
    · rcases List.mem_cons.mp ht with ht | ht
      · rw [ht]
        exact le_trans (le_max_right x y) (foldl_max_le ys (max x y))
      · exact ih (max x y) t (List.mem_cons_of_mem _ ht)

/-- Python's `max(thresholds)` on a non-empty list: the result is in
the list and bounds every element. -/
theorem listMax_spec (l : List ℚ) (hne : l ≠ []) :
    ∃ m, listMax l = some m ∧ m ∈ l ∧ ∀ t ∈ l, t ≤ m := by
  cases l with
  | nil => exact absurd rfl hne
  | cons x xs =>
    exact ⟨xs.foldl max x, rfl, foldl_max_mem xs x, le_foldl_max xs x⟩

/-- C9: given the validated thresholds (non-empty), `summarize`
computes `max_threshold` as the maximum `N0` over all rows,
`N0_star = ceil(2^L * max_threshold)` in exact rational arithmetic
(the integer `n` with `2^L·m ≤ n < 2^L·m + 1`), and
`J_star = j_max + L`. -/
theorem summarize_spec (thresholds : List ℚ) (j_max L : Nat)
    (h : thresholds ≠ []) :
    ∃ m n J, summarize thresholds j_max L = some (m, n, J) ∧
      m ∈ thresholds ∧ (∀ t ∈ thresholds, t ≤ m) ∧
      ((2 ^ L : Nat) : ℚ) * m ≤ (n : ℚ) ∧
      ((n : ℚ)) < ((2 ^ L : Nat) : ℚ) * m + 1 ∧
      J = j_max + L := by
  obtain ⟨m, hm, hmem, hub⟩ := listMax_spec thresholds h
  refine ⟨m, ⌈((2 ^ L : Nat) : ℚ) * m⌉, j_max + L, ?_, hmem, hub, ?_, ?_, rfl⟩
  · unfold summarize
    rw [hm]
  · exact Int.le_ceil _
  · exact Int.ceil_lt_add_one _

/-- Witness for C9 on the threshold list `[1]` with `j_max = 5`,
`L = 0`. -/
theorem summarize_spec_witness :
    ∃ m n J, summarize [1] 5 0 = some (m, n, J) ∧
      m ∈ [(1 : ℚ)] ∧ (∀ t ∈ [(1 : ℚ)], t ≤ m) ∧
      ((2 ^ 0 : Nat) : ℚ) * m ≤ (n : ℚ) ∧
      ((n : ℚ)) < ((2 ^ 0 : Nat) : ℚ) * m + 1 ∧
      J = 5 + 0 :=
  summarize_spec [1] 5 0 (by decide)

end Collatz
